import Mathlib

/-!
Verification of the `Common.h` utility module of LogCabin (namespace `DLog`).

The templates `downCast`, `sorted`, `getKeys`, `getValues`, `getItems` and
`hasOnly` are embedded directly from their bodies in `src/include/Common.h`.
The functions `format`, `isPrintable` and `replaceAll` are only declared in
the header (their translation unit is not part of the sources), so they are
modelled from the specification, as indicated on each definition.
-/

namespace DLog

/-! ## C++ integer semantics for `downCast`

`downCast<Small, Large>` computes `Small small = static_cast<Small>(large);
assert(large - small == 0); return small;`.  We embed the C++ integral types
as a signedness flag plus a bit width, values as mathematical integers with
explicit reduction modulo `2 ^ width`, and the expression `large - small`
through the usual arithmetic conversions (integer promotion, then conversion
to the common type) with wrap-around evaluation in the common type. -/

/-- A C++ integral type: signedness and bit width. -/
structure CInt where
  signed : Bool
  width : Nat
deriving DecidableEq

/-- Smallest value representable in the type. -/
def CInt.lo (t : CInt) : Int :=
  if t.signed then -(2 ^ (t.width - 1)) else 0

/-- One past the largest value representable in the type. -/
def CInt.hi (t : CInt) : Int :=
  if t.signed then 2 ^ (t.width - 1) else 2 ^ t.width

/-- Whether the integer `v` is exactly representable in the type `t`. -/
def CInt.reprB (t : CInt) (v : Int) : Bool :=
  decide (t.lo ≤ v) && decide (v < t.hi)

/-- Conversion of an arbitrary integer into type `t`: reduction modulo
`2 ^ width`, shifted into the signed range when `t` is signed (the behaviour
of `static_cast` on every mainstream implementation, mandated since C++20). -/
def CInt.wrap (t : CInt) (v : Int) : Int :=
  let m := v % (2 ^ t.width : Int)
  if t.signed && decide ((2 ^ (t.width - 1) : Int) ≤ m) then m - 2 ^ t.width else m

/-- C++ integer promotion: types narrower than `int` promote to `int`
(32-bit signed); wider types are unchanged. -/
def promote (t : CInt) : CInt :=
  if t.width < 32 then ⟨true, 32⟩ else t

/-- Common type of two promoted operands per the usual arithmetic
conversions: same signedness picks the wider; with mixed signedness the
unsigned type wins at equal or greater width, otherwise the strictly wider
signed type represents both operands. -/
def commonType (a b : CInt) : CInt :=
  if a.signed = b.signed then (if b.width ≤ a.width then a else b)
  else
    let u := if a.signed then b else a
    let s := if a.signed then a else b
    if s.width ≤ u.width then u else s

/-- The type in which a binary arithmetic operator on operands of types `a`
and `b` is evaluated. -/
def usualArithType (a b : CInt) : CInt :=
  commonType (promote a) (promote b)

/-- Embedding of `downCast<Small, Large>(large)` from `Common.h`:
`small = static_cast<Small>(large)`, then `assert(large - small == 0)`
evaluated in the common arithmetic type of `Large` and `Small`.
`some small` models a successful return, `none` the failed assertion
(process abort). -/
def downCast (Sm Lg : CInt) (large : Int) : Option Int :=
  let small := Sm.wrap large
  let c := usualArithType Lg Sm
  let diff := c.wrap (c.wrap large - c.wrap small)
  if diff = 0 then some small else none

/-! ## PrintableValidator (modelled from the spec) -/

/-- Modelled from the spec: the printable-byte rule of §4.3 — codes 0x20
through 0x7E inclusive. The translation unit defining `isPrintable` is not
among the sources; only its declaration appears in `Common.h`. -/
def printableByte (b : Nat) : Bool :=
  0x20 ≤ b && b ≤ 0x7E

/-- Modelled from the spec: the length-bounded entry point
`isPrintable(data, length)` of §4.3 (its translation unit is absent from the
sources). Returns false for `length = 0`; otherwise requires
`data[length - 1] = 0` and every byte before it printable. A byte read past
the end of the modelled buffer defaults to 1 (neither NUL nor printable; the
C contract requires `length` readable bytes anyway). -/
def isPrintableLen (data : List Nat) (length : Nat) : Bool :=
  if length = 0 then false
  else if data.getD (length - 1) 1 ≠ 0 then false
  else (data.take (length - 1)).all printableByte

/-! ## StringReplacer (modelled from the spec) -/

/-- Whether `needle` is an initial segment of `hay`. -/
def matchesAt : List Char → List Char → Bool
  | _, [] => true
  | [], _ :: _ => false
  | x :: xs, y :: ys => x == y && matchesAt xs ys

/-- Index of the first occurrence of `needle` in `hay`, scanning left to
right. -/
def findIdx : List Char → List Char → Option Nat
  | [], _ => none
  | x :: xs, needle =>
    if matchesAt (x :: xs) needle then some 0
    else (findIdx xs needle).map (· + 1)

/-- Modelled from the spec: the scanning loop of `replaceAll` (§4.4) for a
non-empty needle `n :: ns`: replace the leftmost occurrence, then resume
immediately after the inserted replacement, never re-scanning inserted
bytes. The translation unit defining `replaceAll` is absent from the
sources. -/
def replaceAllGo (n : Char) (ns r : List Char) : List Char → List Char
  | [] => []
  | c :: rest =>
    match findIdx (c :: rest) (n :: ns) with
    | none => c :: rest
    | some i =>
      (c :: rest).take i ++ r ++ replaceAllGo n ns r ((c :: rest).drop (i + (ns.length + 1)))
termination_by hay => hay.length
decreasing_by
  simp only [List.length_drop, List.length_cons]
  omega

/-- Modelled from the spec: `replaceAll(haystack, needle, replacement)`
(§4.4); an empty needle is an explicit no-op. -/
def replaceAll (haystack needle replacement : List Char) : List Char :=
  match needle with
  | [] => haystack
  | n :: ns => replaceAllGo n ns replacement haystack

/-- `replaceAll` restated on Lean strings, for concrete examples. -/
def replaceAllS (haystack needle replacement : String) : String :=
  ⟨replaceAll haystack.toList needle.toList replacement.toList⟩

/-! ## SafeFormatter (modelled from the spec) -/

/-- Modelled from the spec: the variadic interpolation primitive of §4.2
(`vsnprintf`-like). Its abstract input is the fully expanded interpolation
result, `none` standing for an encoding/argument error. It writes at most
`cap - 1` characters into the buffer and reports the full required length
(or a negative value on error) regardless of the capacity supplied. -/
def interpolate (cap : Nat) (expansion : Option (List Char)) : List Char × Int :=
  match expansion with
  | none => ([], -1)
  | some s => (s.take (cap - 1), (s.length : Int))

/-- Modelled from the spec: the initial guessed buffer capacity of §4.2,
a modest fixed size of the order of a few hundred bytes. -/
def formatGuess : Nat := 256

/-- Modelled from the spec: the buffer-growth algorithm of `format` (§4.2),
whose translation unit is absent from the sources. Pass one interpolates
into the guessed buffer; if the reported required length fits, the result is
the first `needed` bytes of that buffer, otherwise a buffer of exactly
`needed + 1` bytes receives one further pass. Returns the produced string
(`none` on `FormatError`) paired with the number of interpolation passes
performed. -/
def formatRun (expansion : Option (List Char)) : Option (List Char) × Nat :=
  let p1 := interpolate formatGuess expansion
  if p1.2 < 0 then (none, 1)
  else
    let needed := p1.2.toNat
    if needed + 1 ≤ formatGuess then (some (p1.1.take needed), 1)
    else
      let p2 := interpolate (needed + 1) expansion
      if p2.2 < 0 then (none, 2)
      else (some (p2.1.take p2.2.toNat), 2)

/-! ## Container helpers, embedded from the template bodies in `Common.h` -/

/-- Embedding of `hasOnly(haystack, needle)`: iterate over the container,
returning false at the first element that compares unequal to `needle`. -/
def hasOnly {α : Type} [DecidableEq α] : List α → α → Bool
  | [], _ => true
  | x :: xs, needle => if x ≠ needle then false else hasOnly xs needle

/-- Embedding of `sorted(container)`: sort ascending by the natural order
(`std::sort` with the default comparator) and return the container. -/
def sorted {α : Type} [LinearOrder α] (container : List α) : List α :=
  container.insertionSort (· ≤ ·)

/-- Embedding of `getKeys(map)`: push each entry's key in iteration
order. -/
def getKeys {K V : Type} : List (K × V) → List K
  | [] => []
  | kv :: rest => kv.1 :: getKeys rest

/-- Embedding of `getValues(map)`: push each entry's value in iteration
order. -/
def getValues {K V : Type} : List (K × V) → List V
  | [] => []
  | kv :: rest => kv.2 :: getValues rest

/-- Embedding of `getItems(map)`: push each entry (a key-value pair) in
iteration order. -/
def getItems {K V : Type} : List (K × V) → List (K × V)
  | [] => []
  | kv :: rest => kv :: getItems rest

/-! ## Helper lemmas -/

theorem CInt.wrap_zero (t : CInt) : t.wrap 0 = 0 := by
  unfold CInt.wrap
  simp

theorem CInt.wrap_eq_of_reprB (t : CInt) (v : Int) (hw : 0 < t.width)
    (h : t.reprB v = true) : t.wrap v = v := by
  have hsplit : (2 ^ t.width : Int) = 2 * 2 ^ (t.width - 1) := by
    rw [← pow_succ']
    congr 1
    omega
  have hp : (0 : Int) < 2 ^ (t.width - 1) := by positivity
  simp only [CInt.reprB, CInt.lo, CInt.hi, Bool.and_eq_true, decide_eq_true_eq] at h
  obtain ⟨hlo, hhi⟩ := h
  unfold CInt.wrap
  rcases ht : t.signed with _ | _ <;> simp [ht] at hlo hhi ⊢
  · exact Int.emod_eq_of_lt hlo hhi
  · rcases le_or_lt 0 v with hv | hv
    · have hm : v % (2 ^ t.width : Int) = v :=
        Int.emod_eq_of_lt hv (by linarith [hsplit])
      rw [hm, if_neg]
      linarith [hsplit]
    · have hm : v % (2 ^ t.width : Int) = v + 2 ^ t.width := by
        have heq := Int.add_mul_emod_self_left (a := v) (b := (2 ^ t.width : Int)) (c := 1)
        rw [mul_one] at heq
        rw [← heq]
        exact Int.emod_eq_of_lt (by linarith [hsplit]) (by linarith [hp])
      rw [hm, if_pos]
      · ring
      · linarith [hsplit]

theorem replaceAllGo_nil (n : Char) (ns r : List Char) :
    replaceAllGo n ns r [] = [] := by
  rw [replaceAllGo]

theorem replaceAllGo_cons (n : Char) (ns r : List Char) (c : Char) (rest : List Char) :
    replaceAllGo n ns r (c :: rest) =
      match findIdx (c :: rest) (n :: ns) with
      | none => c :: rest
      | some i =>
        (c :: rest).take i ++ r ++
          replaceAllGo n ns r ((c :: rest).drop (i + (ns.length + 1))) := by
  rw [replaceAllGo]

theorem all_getD_iff (l : List Nat) (p : Nat → Bool) :
    l.all p = true ↔ ∀ i < l.length, p (l.getD i 1) = true := by
  rw [List.all_eq_true]
  constructor
  · intro h i hi
    rw [List.getD_eq_getElem l 1 hi]
    exact h _ (l.getElem_mem hi)
  · intro h x hx
    obtain ⟨i, hi, rfl⟩ := List.mem_iff_getElem.mp hx
    rw [← List.getD_eq_getElem l 1 hi]
    exact h i hi

theorem getD_take (l : List Nat) (k i : Nat) (hi : i < k) (hk : k ≤ l.length) :
    (l.take k).getD i 1 = l.getD i 1 := by
  have h1 : i < (l.take k).length := by
    rw [List.length_take]
    omega
  have h2 : i < l.length := by omega
  rw [List.getD_eq_getElem _ 1 h1, List.getD_eq_getElem _ 1 h2]
  exact List.getElem_take l

theorem printableByte_iff (b : Nat) :
    printableByte b = true ↔ 0x20 ≤ b ∧ b ≤ 0x7E := by
  simp [printableByte]

/-! ## The claims -/

/-- C1: the claim states that for every value of the wider source type that
is not exactly representable in the narrower target type the assertion
`large - small == 0` in `downCast` fails, for all combinations of
signed/unsigned source and target widths. The code violates this: for the
unsigned 64-bit source value `2^64 - 100` cast down to a signed 8-bit
target, `small` is `-100`, the usual arithmetic conversions bring `-100`
back to `2^64 - 100` in the common type `uint64_t`, the assertion passes,
and the value `-100` is returned silently even though the input is not
representable in the target — contradicting the function's own
documentation that it "asserts that no precision is lost at runtime". -/
theorem downCast_silent_precision_loss :
    downCast ⟨true, 8⟩ ⟨false, 64⟩ (2 ^ 64 - 100) = some (-100) ∧
    CInt.reprB ⟨true, 8⟩ (2 ^ 64 - 100) = false ∧
    CInt.reprB ⟨false, 64⟩ (2 ^ 64 - 100) = true := by
  refine ⟨?_, by decide, by decide⟩
  decide

/-- C2: for every integral value `v` exactly representable in the narrower
target type (and representable in the wider source type it is read from),
`downCast` does not abort and returns a value that, widened back to the
source type, equals `v`. -/
theorem downCast_roundTrip (Sm Lg : CInt) (v : Int)
    (hS : 0 < Sm.width) (hL : 0 < Lg.width)
    (hvS : Sm.reprB v = true) (hvL : Lg.reprB v = true) :
    downCast Sm Lg v = some v ∧ Lg.wrap v = v := by
  have hsmall : Sm.wrap v = v := CInt.wrap_eq_of_reprB Sm v hS hvS
  have hlarge : Lg.wrap v = v := CInt.wrap_eq_of_reprB Lg v hL hvL
  refine ⟨?_, hlarge⟩
  unfold downCast
  simp [hsmall, sub_self, CInt.wrap_zero]

theorem downCast_roundTrip_witness :
    downCast ⟨true, 8⟩ ⟨false, 64⟩ 5 = some 5 ∧ CInt.wrap ⟨false, 64⟩ 5 = 5 :=
  downCast_roundTrip ⟨true, 8⟩ ⟨false, 64⟩ 5 (by decide) (by decide) (by decide)
    (by decide)

/-- C3: the length-bounded `isPrintable(data, length)` returns false when
`length = 0`; returns false when `data[length - 1] ≠ 0`; and otherwise
returns true iff every byte `data[0 .. length - 2]` lies in the inclusive
range 0x20..0x7E. In particular `isPrintable(data, 1)` with `data[0] = 0`
returns true: the empty string is printable. -/
theorem isPrintableLen_spec (data : List Nat) (length : Nat)
    (hlen : length ≤ data.length) :
    (length = 0 → isPrintableLen data length = false) ∧
    (1 ≤ length → data.getD (length - 1) 1 ≠ 0 → isPrintableLen data length = false) ∧
    (1 ≤ length → data.getD (length - 1) 1 = 0 →
      (isPrintableLen data length = true ↔
        ∀ i < length - 1, 0x20 ≤ data.getD i 1 ∧ data.getD i 1 ≤ 0x7E)) ∧
    isPrintableLen [0] 1 = true := by
  refine ⟨?_, ?_, ?_, by decide⟩
  · intro h
    simp [isPrintableLen, h]
  · intro h1 h2
    simp only [isPrintableLen]
    rw [if_neg (by omega), if_pos h2]
  · intro h1 h2
    simp only [isPrintableLen]
    rw [if_neg (by omega), if_neg (by simpa using h2)]
    rw [all_getD_iff]
    have hL : (data.take (length - 1)).length = length - 1 := by
      rw [List.length_take]
      omega
    rw [hL]
    constructor
    · intro h i hi
      have hp := h i hi
      rw [getD_take data (length - 1) i hi (by omega)] at hp
      exact (printableByte_iff _).mp hp
    · intro h i hi
      rw [getD_take data (length - 1) i hi (by omega)]
      exact (printableByte_iff _).mpr (h i hi)

theorem isPrintableLen_spec_witness :
    isPrintableLen [72, 0] 2 = true ∧ isPrintableLen [0] 1 = true := by
  have h := isPrintableLen_spec [72, 0] 2 (by decide)
  exact ⟨(h.2.2.1 (by decide) (by decide)).mpr (by decide), h.2.2.2⟩

/-- C4: `replaceAll` terminates even when the replacement contains the
needle: the scan resumes immediately after each inserted replacement and
never re-scans inserted bytes, so `replaceAll("aaa", "a", "aa")` yields
exactly "aaaaaa" (six characters) and, in general, a run of `k` letters
becomes a run of `2 * k` — one replacement per original occurrence, not an
infinite expansion. -/
theorem replaceAll_terminates :
    replaceAllS "aaa" "a" "aa" = "aaaaaa" ∧
    ∀ k : Nat, replaceAll (List.replicate k 'a') ['a'] ['a', 'a'] =
      List.replicate (2 * k) 'a' := by
  constructor
  · show replaceAllS ⟨['a', 'a', 'a']⟩ ⟨['a']⟩ ⟨['a', 'a']⟩ =
      ⟨['a', 'a', 'a', 'a', 'a', 'a']⟩
    unfold replaceAllS replaceAll
    simp only [String.toList]
    norm_num [replaceAllGo_cons, replaceAllGo_nil, findIdx, matchesAt]
  · intro k
    induction k with
    | zero => simp [replaceAll, replaceAllGo_nil]
    | succ k ih =>
      have h2 : 2 * (k + 1) = 2 * k + 1 + 1 := by ring
      rw [List.replicate_succ, h2, List.replicate_succ, List.replicate_succ]
      simp only [replaceAll] at ih ⊢
      rw [replaceAllGo_cons]
      have hf : findIdx ('a' :: List.replicate k 'a') ['a'] = some 0 := by
        simp [findIdx, matchesAt]
      rw [hf]
      simp [ih]

/-- C5: for every haystack and every non-empty needle, `replaceAll` performs
a single left-to-right scan: when the needle does not occur the haystack is
unchanged, and when its leftmost occurrence is at index `i` the result is
the prefix up to `i`, then the replacement, then the recursively processed
remainder starting right after that occurrence (occurrences are
non-overlapping by construction); `replaceAll("aaa", "a", "bb")` yields
"bbbbbb". -/
theorem replaceAll_scan_spec :
    replaceAllS "aaa" "a" "bb" = "bbbbbb" ∧
    (∀ hay n ns r, findIdx hay (n :: ns) = none →
      replaceAll hay (n :: ns) r = hay) ∧
    (∀ hay n ns r i, findIdx hay (n :: ns) = some i →
      replaceAll hay (n :: ns) r =
        hay.take i ++ r ++
          replaceAll (hay.drop (i + (n :: ns).length)) (n :: ns) r) := by
  refine ⟨?_, ?_, ?_⟩
  · show replaceAllS ⟨['a', 'a', 'a']⟩ ⟨['a']⟩ ⟨['b', 'b']⟩ =
      ⟨['b', 'b', 'b', 'b', 'b', 'b']⟩
    unfold replaceAllS replaceAll
    simp only [String.toList]
    norm_num [replaceAllGo_cons, replaceAllGo_nil, findIdx, matchesAt]
  · intro hay n ns r h
    cases hay with
    | nil => simp [replaceAll, replaceAllGo_nil]
    | cons c rest =>
      simp only [replaceAll]
      rw [replaceAllGo_cons, h]
  · intro hay n ns r i h
    cases hay with
    | nil => simp [findIdx] at h
    | cons c rest =>
      simp only [replaceAll]
      rw [replaceAllGo_cons, h]
      simp

theorem replaceAll_scan_spec_witness :
    replaceAll ['a', 'b'] ['a'] ['c'] = ['c', 'b'] := by
  have h := replaceAll_scan_spec
  have h1 := h.2.2 ['a', 'b'] 'a' [] ['c'] 0 (by decide)
  have h2 := h.2.1 ['b'] 'a' [] ['c'] (by decide)
  simp only [List.length_cons, List.length_nil] at h1
  norm_num at h1
  rw [h1, h2]

/-- C6: `replaceAll` with an empty needle is a no-op: the haystack is left
unchanged for every haystack and every replacement, in particular
`replaceAll("banana", "", "X")` leaves "banana" unchanged. -/
theorem replaceAll_empty_needle :
    (∀ haystack replacement : List Char,
      replaceAll haystack [] replacement = haystack) ∧
    replaceAllS "banana" "" "X" = "banana" :=
  ⟨fun _ _ => rfl, rfl⟩

/-- C7: for every format template and matching arguments (embedded by the
fully expanded interpolation result `s`), `format` returns the complete
expansion with no silent truncation — also when the result is far longer
than the initial guessed buffer — and performs at most two interpolation
passes. -/
theorem format_no_truncation (s : List Char) :
    (formatRun (some s)).1 = some s ∧ (formatRun (some s)).2 ≤ 2 := by
  have hneg : ¬ ((s.length : Int) < 0) := by simp
  by_cases h : s.length + 1 ≤ 256
  · have ht : (s.take (256 - 1)).take s.length = s := by
      rw [List.take_take, min_eq_left (by omega), List.take_length]
    simp [formatRun, interpolate, formatGuess, hneg, h, ht]
  · have ht : (s.take (s.length + 1 - 1)).take s.length = s := by
      rw [Nat.add_sub_cancel, List.take_take, min_self, List.take_length]
    simp [formatRun, interpolate, formatGuess, hneg, h, ht]

/-- C8: `hasOnly(haystack, needle)` returns true iff every element of the
sequence compares equal to the reference value. -/
theorem hasOnly_iff {α : Type} [DecidableEq α] (haystack : List α) (needle : α) :
    hasOnly haystack needle = true ↔ ∀ x ∈ haystack, x = needle := by
  induction haystack with
  | nil => simp [hasOnly]
  | cons x xs ih =>
    by_cases hx : x = needle
    · simp [hasOnly, hx, ih]
    · simp [hasOnly, hx]

/-- C9: `sorted(container)` returns the same sequence sorted ascending by
the natural order: the result is sorted and is a permutation of the
input. -/
theorem sorted_is_sorted_perm {α : Type} [LinearOrder α] (container : List α) :
    List.Sorted (· ≤ ·) (sorted container) ∧ (sorted container).Perm container :=
  ⟨List.sorted_insertionSort _ _, List.perm_insertionSort _ _⟩

/-- C10: `getKeys`, `getValues` and `getItems` all have length equal to the
number of entries of the map, and `getItems` is the element-wise zip of
`getKeys` and `getValues` in the container's iteration order. -/
theorem getItems_eq_zip {K V : Type} (m : List (K × V)) :
    (getKeys m).length = m.length ∧ (getValues m).length = m.length ∧
    (getItems m).length = m.length ∧
    getItems m = (getKeys m).zip (getValues m) := by
  induction m with
  | nil => simp [getKeys, getValues, getItems]
  | cons kv rest ih =>
    refine ⟨?_, ?_, ?_, ?_⟩
    · simp [getKeys, ih.1]
    · simp [getValues, ih.2.1]
    · simp [getItems, ih.2.2.1]
    · simp [getKeys, getValues, getItems, List.zip_cons_cons, ih.2.2.2]

end DLog
